import Mathlib

/-!
Verification of `src/kernl/optimizer/cuda_graph.py`.

The Python module maintains a process-wide pool of CUDA tensors
(`static_inputs_pool : dict[(int, torch.dtype), deque[torch.Tensor]]`),
a binding routine `get_static_inputs` that copies caller tensors into
pooled fixed-address buffers, and `cuda_graphs_wrapper`, which either
captures a CUDA graph eagerly (all inputs concrete) or defers capture to
the first concrete call (some input is a `FakeTensor`).

The embedding below models tensors abstractly: a tensor carries its
dtype, logical shape and stride, its logical (flattened) values, the
byte length of its underlying untyped storage, and its base device
address (`data_ptr`).  External torch / triton primitives are modelled
by their documented contracts:
  * `len(t.untyped_storage())` returns the storage size in BYTES
    (a PyTorch untyped storage is a one-dimensional array of bytes);
  * `triton.next_power_of_2 n` is the smallest power of two that is
    greater than or equal to `n` (and `0` for `n = 0`);
  * `torch.empty((n,), dtype, device)` allocates a fresh 1-D tensor of
    `n` elements at a fresh address, with storage offset 0;
  * `torch.as_strided(t, size, stride)` reinterprets the same storage
    (inheriting `t`'s storage offset, hence the same `data_ptr`);
  * `Tensor.copy_` overwrites logical values in place, leaving the
    destination address unchanged.
The global mutable pool is threaded explicitly as a `PoolState`; fresh
device addresses are drawn from an allocation cursor `nextAddr`.
-/

/-- Element types of the tensors we consider, with their byte widths. -/
inductive DType where
  | float32
  | float16
  | int8
deriving DecidableEq

/-- Byte width of one element (`torch.dtype.itemsize`). -/
def DType.itemsize : DType → Nat
  | .float32 => 4
  | .float16 => 2
  | .int8 => 1

/-- Abstract model of a `torch.Tensor`: dtype, logical shape and stride,
logical (flattened) values, byte length of the untyped storage, and base
device address (`data_ptr`). -/
structure Tensor where
  dtype : DType
  shape : List Nat
  stride : List Nat
  values : List Int
  storageNBytes : Nat
  addr : Nat
deriving DecidableEq

/-- Doubling loop: starting from `p`, double until `n ≤ p` (with enough
fuel).  All iterates are powers of two when `p` is. -/
def np2From (n : Nat) : Nat → Nat → Nat
  | 0, p => p
  | fuel + 1, p => if n ≤ p then p else np2From n fuel (2 * p)

/-- Model of `triton.next_power_of_2`: the smallest power of two greater
than or equal to `n` (the bit-twiddling in triton returns `0` at `0`).
The least-power-of-two characterisation is proved below
(`le_next_power_of_2`, `next_power_of_2_pow`, `next_power_of_2_min`). -/
def next_power_of_2 (n : Nat) : Nat :=
  if n = 0 then 0 else np2From n n 1

/-- `storage_size` computed at line 41 of the source:
`triton.next_power_of_2(len(original_tensor.untyped_storage()))`. -/
def sizeClassOf (t : Tensor) : Nat :=
  next_power_of_2 t.storageNBytes

/-- Pool keys are `(storage_size, dtype)` pairs (line 42). -/
abbrev PoolKey := Nat × DType

/-- `tensor_pool_key = (storage_size, original_tensor.dtype)` (line 42). -/
def keyOf (t : Tensor) : PoolKey :=
  (sizeClassOf t, t.dtype)

/-- A `defaultdict(deque)` keyed by `PoolKey`: absent keys read as the
empty deque.  The head of the list is the front of the deque. -/
abbrev Pool := PoolKey → List Tensor

/-- Pointwise update of one deque of the pool. -/
def poolSet (p : Pool) (k : PoolKey) (v : List Tensor) : Pool :=
  fun q => if q = k then v else p q

/-- The process-wide state: the master pool `static_inputs_pool` plus an
allocation cursor handing out fresh device addresses. -/
structure PoolState where
  master : Pool
  nextAddr : Nat

/-- The empty pool at process start. -/
def initState : PoolState :=
  ⟨fun _ => [], 0⟩

/-- Model of `torch.empty((n,), dtype=dt, device=...)` at address `a`:
a fresh 1-D tensor of `n` elements (uninitialised contents modelled as
zeros; they are overwritten before being read), storage offset 0, with
an untyped storage of `n * dt.itemsize` bytes. -/
def torchEmpty (n : Nat) (dt : DType) (a : Nat) : Tensor :=
  ⟨dt, [n], [1], List.replicate n 0, n * dt.itemsize, a⟩

/-- Model of `torch.as_strided(t, size, stride)`: same storage, same
storage offset (hence the same base address), new shape and stride. -/
def asStrided (t : Tensor) (shape stride : List Nat) : Tensor :=
  { t with shape := shape, stride := stride }

/-- Model of `dst.copy_(src)`: in-place elementwise copy of the logical
values; the destination address is unchanged. -/
def copyInto (dst src : Tensor) : Tensor :=
  { dst with values := src.values }

/-- One iteration of the loop body of `get_static_inputs`
(lines 40-54), without the address-stability assertion: resolve a
buffer for the input's pool key (pop the snapshot, else allocate and
register in the master pool), build the strided view, copy the values.
Returns the view and the updated (master, snapshot, cursor). -/
def bindOneT (m snap : Pool) (next : Nat) (t : Tensor) :
    Tensor × Pool × Pool × Nat :=
  let pick : Tensor × Pool × Pool × Nat :=
    match snap (keyOf t) with
    | b :: rest => (b, m, poolSet snap (keyOf t) rest, next)
    | [] =>
      let b := torchEmpty (sizeClassOf t) t.dtype next
      (b, poolSet m (keyOf t) (m (keyOf t) ++ [b]), snap, next + 1)
  (copyInto (asStrided pick.1 t.shape t.stride) t, pick.2)

/-- The loop of `get_static_inputs` (lines 39-53) without the
assertion: fold `bindOneT` over the inputs, collecting the bound views.
Returns `(views, master, snapshot, cursor)`. -/
def gsiGoT (m snap : Pool) (next : Nat) : List Tensor → List Tensor × Pool × Pool × Nat
  | [] => ([], m, snap, next)
  | t :: ts =>
    let b := bindOneT m snap next t
    let r := gsiGoT b.2.1 b.2.2.1 b.2.2.2 ts
    (b.1 :: r.1, r.2)

/-- `get_static_inputs` with the always-true assertion elided: the
snapshot starts as a copy of the master pool (lines 36-38), the final
snapshot is dropped (it is a local variable). -/
def get_static_inputsT (st : PoolState) (ts : List Tensor) :
    List Tensor × PoolState :=
  let r := gsiGoT st.master st.master st.nextAddr ts
  (r.1, ⟨r.2.1, r.2.2.2⟩)

/-- One iteration of the loop body of `get_static_inputs`
(lines 40-54) including the assertion of line 54: record `before_ptr`,
build the view, copy, and fail if the address moved. -/
def bindOne (m snap : Pool) (next : Nat) (t : Tensor) :
    Except String (Tensor × Pool × Pool × Nat) :=
  let pick : Tensor × Pool × Pool × Nat :=
    match snap (keyOf t) with
    | b :: rest => (b, m, poolSet snap (keyOf t) rest, next)
    | [] =>
      let b := torchEmpty (sizeClassOf t) t.dtype next
      (b, poolSet m (keyOf t) (m (keyOf t) ++ [b]), snap, next + 1)
  let before_ptr := pick.1.addr
  let static_tensor := copyInto (asStrided pick.1 t.shape t.stride) t
  if before_ptr = static_tensor.addr then
    .ok (static_tensor, pick.2)
  else
    .error ("should be equal")

/-- The loop of `get_static_inputs` with the assertion (an assertion
failure aborts the whole call). -/
def gsiGo (m snap : Pool) (next : Nat) : List Tensor → Except String (List Tensor × Pool × Pool × Nat)
  | [] => .ok ([], m, snap, next)
  | t :: ts =>
    match bindOne m snap next t with
    | .error e => .error e
    | .ok b =>
      match gsiGo b.2.1 b.2.2.1 b.2.2.2 ts with
      | .error e => .error e
      | .ok r => .ok (b.1 :: r.1, r.2)

/-- `get_static_inputs` (lines 28-56): clone the master pool into a
call-local snapshot, bind every input in order, return the bound views
and the updated process state; an assertion failure aborts the call. -/
def get_static_inputs (st : PoolState) (ts : List Tensor) :
    Except String (List Tensor × PoolState) :=
  match gsiGo st.master st.master st.nextAddr ts with
  | .error e => .error e
  | .ok r => .ok (r.1, ⟨r.2.1, r.2.2.2⟩)

/-- Number of inputs of a call that map to pool key `k` (the call's
concurrent demand for `k`). -/
def countKey (k : PoolKey) : List Tensor → Nat
  | [] => 0
  | t :: ts => (if keyOf t = k then 1 else 0) + countKey k ts

/-- A tensor whose typed storage holds `n` elements of dtype `dt`, at
base address `a`: its untyped storage is `n * dt.itemsize` bytes long
(PyTorch untyped storages are byte arrays). -/
def tensorOfElems (n : Nat) (dt : DType) (a : Nat) : Tensor :=
  ⟨dt, [n], [1], List.replicate n 0, n * dt.itemsize, a⟩

/-- Bookkeeping for the loop invariant: bump the consumed-buffer count
of key `k0` by one. -/
def bumpKey (f : PoolKey → Nat) (k0 k : PoolKey) : Nat :=
  if k0 = k then f k + 1 else f k

/-- One recorded invocation of the external capture primitive
`cudagraphify_impl`: the bound inputs passed and the static index
tuple. -/
structure CaptureCall where
  boundInputs : List Tensor
  staticIdxs : List Nat
deriving DecidableEq

/-- Result of the eager branch (lines 69-75): the bound example
inputs, the updated pool state, the capture invocation, and the replay
closure returned to the caller, which re-binds each call through the
pool before replaying. -/
structure EagerBuild where
  bound : List Tensor
  pool : PoolState
  cap : CaptureCall
  replay : PoolState → List Tensor → List Tensor × PoolState

/-- The eager branch of `cuda_graphs_wrapper` (lines 69-75), with the
wrapped `model` and `cudagraphify_impl` as opaque parameters `M` and
`Cap`: bind the inputs, warm up, capture with
`static_input_idxs = tuple(range(len(inputs)))` where `inputs` is the
freshly bound list, and return the replay closure. -/
def eagerBuild (M : List Tensor → List Tensor)
    (Cap : (List Tensor → List Tensor) → List Tensor → List Nat → (List Tensor → List Tensor))
    (st : PoolState) (ts : List Tensor) : EagerBuild :=
  let r := get_static_inputsT st ts
  let inputs := r.1
  let _warmup := M inputs
  let f := Cap (fun args => M args) inputs (List.range inputs.length)
  ⟨inputs, r.2, ⟨inputs, List.range inputs.length⟩,
    fun st1 args =>
      let rr := get_static_inputsT st1 args
      (f rr.1, rr.2)⟩

/-- Closure state of the deferred branch: the `compiled_fn` cell
(`None` until the first concrete call) together with the trace of
capture invocations performed so far. -/
structure DeferredState where
  compiledFn : Option (List Tensor → List Tensor)
  captureLog : List CaptureCall

/-- One invocation of the deferred `run` closure (lines 79-92): bind
the new inputs, populate the `compiled_fn` cell on first use (warm-up
under the RNG-preserving scope, then capture with
`static_input_idxs = tuple(range(len(inputs)))` where `inputs` are the
CONSTRUCTION-time example inputs, of count `nExample`), and apply the
cached function to the bound inputs. -/
def deferredStep (M : List Tensor → List Tensor)
    (Cap : (List Tensor → List Tensor) → List Tensor → List Nat → (List Tensor → List Tensor))
    (nExample : Nat) (ds : DeferredState) (st : PoolState) (args : List Tensor) :
    List Tensor × DeferredState × PoolState :=
  let r := get_static_inputsT st args
  match ds.compiledFn with
  | some cf => (cf r.1, ds, r.2)
  | none =>
    let _warmup := M r.1
    let f := Cap (fun as => M as) r.1 (List.range nExample)
    let cf := fun as => f as
    (cf r.1, ⟨some cf, ds.captureLog ++ [⟨r.1, List.range nExample⟩]⟩, r.2)

/-- A sequence of invocations of the deferred `run` closure, threading
the closure state and the global pool. -/
def deferredRun (M : List Tensor → List Tensor)
    (Cap : (List Tensor → List Tensor) → List Tensor → List Nat → (List Tensor → List Tensor))
    (nExample : Nat) : DeferredState → PoolState → List (List Tensor) → DeferredState × PoolState
  | ds, st, [] => (ds, st)
  | ds, st, args :: rest =>
    let r := deferredStep M Cap nExample ds st args
    deferredRun M Cap nExample r.2.1 r.2.2 rest

/-- A wrapper input: a tensor tagged with whether it is a
`torch._subclasses.FakeTensor`. -/
structure WInput where
  t : Tensor
  isFake : Bool
deriving DecidableEq

/-- The `inputs` argument of `cuda_graphs_wrapper`: a Python list, a
tuple, or some other object, which fails the isinstance assertion of
line 67. -/
inductive PyArg where
  | list (xs : List WInput)
  | tuple (xs : List WInput)
  | notSeq

/-- What `cuda_graphs_wrapper` returns: the eager replay closure or
the deferred `run` closure (its example-input count and its initial
closure state). -/
inductive WrapperRet where
  | eagerRet (b : EagerBuild)
  | deferredRet (nExample : Nat) (ds : DeferredState)

/-- Whether the returned callable is the deferred `run`. -/
def WrapperRet.isDeferredB : WrapperRet → Bool
  | .eagerRet _ => false
  | .deferredRet _ _ => true

/-- Branch selection of `cuda_graphs_wrapper` (lines 69-94): eager
when no input is fake, deferred otherwise (with `compiled_fn = None`
and example-input count `len(inputs)`). -/
def wrapperBody (M : List Tensor → List Tensor)
    (Cap : (List Tensor → List Tensor) → List Tensor → List Nat → (List Tensor → List Tensor))
    (st : PoolState) (xs : List WInput) : WrapperRet :=
  if ¬ xs.any (fun i => i.isFake) then
    .eagerRet (eagerBuild M Cap st (xs.map (fun i => i.t)))
  else
    .deferredRet xs.length ⟨none, []⟩

/-- `cuda_graphs_wrapper` (lines 59-94): assert that the inputs
argument is a list or a tuple, then select the eager or the deferred
branch according to whether any input is a `FakeTensor`. -/
def cuda_graphs_wrapper (M : List Tensor → List Tensor)
    (Cap : (List Tensor → List Tensor) → List Tensor → List Nat → (List Tensor → List Tensor))
    (st : PoolState) (inputs : PyArg) : Except String WrapperRet :=
  match inputs with
  | .notSeq => .error ("inputs must be a list or a tuple")
  | .list xs => .ok (wrapperBody M Cap st xs)
  | .tuple xs => .ok (wrapperBody M Cap st xs)

/-- A concrete float32 tensor: 2 storage elements (8 bytes), values
3 and 4, base address 1000. -/
def tA : Tensor :=
  ⟨DType.float32, [2], [1], [3, 4], 8, 1000⟩

/-- A concrete float32 tensor: 2 storage elements (8 bytes), values
5 and 6, base address 1200. -/
def tB : Tensor :=
  ⟨DType.float32, [2], [1], [5, 6], 8, 1200⟩

/-- A trivial stand-in for the wrapped model. -/
def M0 : List Tensor → List Tensor :=
  fun _ => []

/-- A trivial stand-in for the capture primitive. -/
def Cap0 : (List Tensor → List Tensor) → List Tensor → List Nat → (List Tensor → List Tensor) :=
  fun _ _ _ => fun _ => []

/-- A pooled buffer of key `(8, float32)` at address 0. -/
def bufA : Tensor :=
  torchEmpty 8 DType.float32 0

/-- A pooled buffer of key `(8, float32)` at address 1. -/
def bufB : Tensor :=
  torchEmpty 8 DType.float32 1

/-- A pool state whose `(8, float32)` deque already holds
`[bufA, bufB]`. -/
def stAB : PoolState :=
  ⟨poolSet (fun _ => []) (8, DType.float32) [bufA, bufB], 2⟩

/-- An empty pool whose allocation cursor sits above the addresses of
`tA` and `tB`. -/
def stHi : PoolState :=
  ⟨fun _ => [], 1500⟩

theorem view_addr (b : Tensor) (sh st : List Nat) (t : Tensor) :
    (copyInto (asStrided b sh st) t).addr = b.addr := rfl

theorem view_shape (b : Tensor) (sh st : List Nat) (t : Tensor) :
    (copyInto (asStrided b sh st) t).shape = sh := rfl

theorem view_stride (b : Tensor) (sh st : List Nat) (t : Tensor) :
    (copyInto (asStrided b sh st) t).stride = st := rfl

theorem view_values (b : Tensor) (sh st : List Nat) (t : Tensor) :
    (copyInto (asStrided b sh st) t).values = t.values := rfl

theorem poolSet_same (p : Pool) (k : PoolKey) (v : List Tensor) :
    poolSet p k v k = v := by
  simp [poolSet]

theorem poolSet_ne (p : Pool) (k q : PoolKey) (v : List Tensor) (h : q ≠ k) :
    poolSet p k v q = p q := by
  simp [poolSet, h]

/-- The assertion in the loop body always passes: `bindOne` is `bindOneT`. -/
theorem bindOne_eq_ok (m snap : Pool) (next : Nat) (t : Tensor) :
    bindOne m snap next t = .ok (bindOneT m snap next t) := by
  simp [bindOne, bindOneT, copyInto, asStrided]

/-- The checked loop never fails and computes the same result as the
total loop. -/
theorem gsiGo_eq_ok (ts : List Tensor) : ∀ (m snap : Pool) (next : Nat),
    gsiGo m snap next ts = .ok (gsiGoT m snap next ts) := by
  induction ts with
  | nil => intro m snap next; rfl
  | cons t ts ih =>
    intro m snap next
    simp [gsiGo, gsiGoT, bindOne_eq_ok, ih]

theorem bindOneT_pop (m snap : Pool) (next : Nat) (t b : Tensor)
    (rest : List Tensor) (h : snap (keyOf t) = b :: rest) :
    bindOneT m snap next t =
      (copyInto (asStrided b t.shape t.stride) t, m,
        poolSet snap (keyOf t) rest, next) := by
  simp [bindOneT, h]

theorem bindOneT_alloc (m snap : Pool) (next : Nat) (t : Tensor)
    (h : snap (keyOf t) = []) :
    bindOneT m snap next t =
      (copyInto (asStrided (torchEmpty (sizeClassOf t) t.dtype next) t.shape t.stride) t,
        poolSet m (keyOf t) (m (keyOf t) ++ [torchEmpty (sizeClassOf t) t.dtype next]),
        snap, next + 1) := by
  simp [bindOneT, h]

theorem gsiGoT_cons_pop (m snap : Pool) (next : Nat) (t b : Tensor)
    (rest ts : List Tensor) (h : snap (keyOf t) = b :: rest) :
    gsiGoT m snap next (t :: ts) =
      ((copyInto (asStrided b t.shape t.stride) t)
          :: (gsiGoT m (poolSet snap (keyOf t) rest) next ts).1,
        (gsiGoT m (poolSet snap (keyOf t) rest) next ts).2) := by
  simp [gsiGoT, bindOneT_pop m snap next t b rest h]

theorem gsiGoT_cons_alloc (m snap : Pool) (next : Nat) (t : Tensor)
    (ts : List Tensor) (h : snap (keyOf t) = []) :
    gsiGoT m snap next (t :: ts) =
      ((copyInto (asStrided (torchEmpty (sizeClassOf t) t.dtype next) t.shape t.stride) t)
          :: (gsiGoT (poolSet m (keyOf t) (m (keyOf t) ++ [torchEmpty (sizeClassOf t) t.dtype next]))
                snap (next + 1) ts).1,
        (gsiGoT (poolSet m (keyOf t) (m (keyOf t) ++ [torchEmpty (sizeClassOf t) t.dtype next]))
            snap (next + 1) ts).2) := by
  simp [gsiGoT, bindOneT_alloc m snap next t h]

/-- The loop returns exactly one bound view per input. -/
theorem gsiGoT_len (ts : List Tensor) : ∀ (m snap : Pool) (next : Nat),
    (gsiGoT m snap next ts).1.length = ts.length := by
  induction ts with
  | nil => intro m snap next; rfl
  | cons t ts ih =>
    intro m snap next
    cases h : snap (keyOf t) with
    | nil => rw [gsiGoT_cons_alloc m snap next t ts h]; simp [ih]
    | cons b rest => rw [gsiGoT_cons_pop m snap next t b rest ts h]; simp [ih]

/-- The allocation cursor never decreases, and the master pool only
grows by appending buffers whose addresses are fresh (drawn from the
interval between the initial and the final cursor). -/
theorem gsiGoT_ext (ts : List Tensor) : ∀ (m snap : Pool) (next : Nat),
    next ≤ (gsiGoT m snap next ts).2.2.2
    ∧ ∀ k, ∃ ext, (gsiGoT m snap next ts).2.1 k = m k ++ ext
        ∧ ∀ b ∈ ext, next ≤ b.addr ∧ b.addr < (gsiGoT m snap next ts).2.2.2 := by
  induction ts with
  | nil =>
    intro m snap next
    exact ⟨le_refl _, fun k => ⟨[], by simp [gsiGoT], fun b hb => absurd hb (List.not_mem_nil b)⟩⟩
  | cons t ts ih =>
    intro m snap next
    cases h : snap (keyOf t) with
    | cons b rest =>
      rw [gsiGoT_cons_pop m snap next t b rest ts h]
      obtain ⟨hn, hext⟩ := ih m (poolSet snap (keyOf t) rest) next
      exact ⟨hn, hext⟩
    | nil =>
      rw [gsiGoT_cons_alloc m snap next t ts h]
      obtain ⟨hn, hext⟩ :=
        ih (poolSet m (keyOf t) (m (keyOf t) ++ [torchEmpty (sizeClassOf t) t.dtype next]))
           snap (next + 1)
      refine ⟨le_trans (Nat.le_succ next) hn, fun k => ?_⟩
      obtain ⟨ext, he, hbnd⟩ := hext k
      by_cases hk : k = keyOf t
      · subst hk
        rw [poolSet_same] at he
        refine ⟨torchEmpty (sizeClassOf t) t.dtype next :: ext, ?_, ?_⟩
        · rw [he, List.append_assoc]
          rfl
        · intro c hc
          rcases List.mem_cons.mp hc with hc | hc
          · subst hc
            exact ⟨le_refl _, lt_of_lt_of_le (Nat.lt_succ_self next) hn⟩
          · obtain ⟨h1, h2⟩ := hbnd c hc
            exact ⟨le_trans (Nat.le_succ next) h1, h2⟩
      · rw [poolSet_ne m (keyOf t) k _ hk] at he
        refine ⟨ext, he, fun c hc => ?_⟩
        obtain ⟨h1, h2⟩ := hbnd c hc
        exact ⟨le_trans (Nat.le_succ next) h1, h2⟩

/-- If every pooled buffer's address lies below the cursor and per-key
addresses are pairwise distinct, the loop preserves both facts. -/
theorem gsiGoT_wf (ts : List Tensor) : ∀ (m snap : Pool) (next : Nat),
    (∀ k, ∀ b ∈ m k, b.addr < next) →
    (∀ k, ((m k).map Tensor.addr).Nodup) →
    (∀ k, ∀ b ∈ (gsiGoT m snap next ts).2.1 k, b.addr < (gsiGoT m snap next ts).2.2.2)
    ∧ (∀ k, (((gsiGoT m snap next ts).2.1 k).map Tensor.addr).Nodup) := by
  induction ts with
  | nil => intro m snap next hb hnd; exact ⟨hb, hnd⟩
  | cons t ts ih =>
    intro m snap next hb hnd
    cases h : snap (keyOf t) with
    | cons b rest =>
      rw [gsiGoT_cons_pop m snap next t b rest ts h]
      exact ih m (poolSet snap (keyOf t) rest) next hb hnd
    | nil =>
      rw [gsiGoT_cons_alloc m snap next t ts h]
      apply ih
      · intro k c hc
        by_cases hk : k = keyOf t
        · subst hk
          rw [poolSet_same] at hc
          rcases List.mem_append.mp hc with hc | hc
          · exact lt_trans (hb _ c hc) (Nat.lt_succ_self next)
          · rw [List.mem_singleton.mp hc]
            exact Nat.lt_succ_self next
        · rw [poolSet_ne m (keyOf t) k _ hk] at hc
          exact lt_trans (hb k c hc) (Nat.lt_succ_self next)
      · intro k
        by_cases hk : k = keyOf t
        · subst hk
          rw [poolSet_same, List.map_append, List.nodup_append]
          refine ⟨hnd _, by simp [torchEmpty], ?_⟩
          intro a ha hmem
          rcases List.mem_map.mp ha with ⟨c, hc, rfl⟩
          have : c.addr = next := by simpa [torchEmpty] using hmem
          exact absurd this (Nat.ne_of_lt (hb _ c hc))
        · rw [poolSet_ne m (keyOf t) k _ hk]
          exact hnd k

theorem countKey_nil (k : PoolKey) : countKey k [] = 0 := rfl

theorem countKey_cons (k : PoolKey) (t : Tensor) (ts : List Tensor) :
    countKey k (t :: ts) = (if keyOf t = k then 1 else 0) + countKey k ts := rfl

theorem countKey_cons_same (t : Tensor) (ts : List Tensor) :
    countKey (keyOf t) (t :: ts) = 1 + countKey (keyOf t) ts := by
  simp [countKey]

theorem countKey_cons_ne (t : Tensor) (ts : List Tensor) (k : PoolKey)
    (h : keyOf t ≠ k) : countKey k (t :: ts) = countKey k ts := by
  simp [countKey, h]

theorem bumpKey_same (f : PoolKey → Nat) (k0 : PoolKey) :
    bumpKey f k0 k0 = f k0 + 1 := by
  simp [bumpKey]

theorem bumpKey_ne (f : PoolKey → Nat) (k0 k : PoolKey) (h : k0 ≠ k) :
    bumpKey f k0 k = f k := by
  simp [bumpKey, h]

/-- Main characterisation of the loop.  `f k` counts the buffers of key
`k` already consumed from the snapshot.  If the snapshot is the master
pool with the first `f k` buffers of every key dropped, then (a) each
final deque length is the maximum of its current length and the
cumulative demand, and (b) the `j`-th bound view is a view over the
buffer at position `f k + (occurrences of k before j)` of the final
master deque for `k` the key of input `j`. -/
theorem gsiGoT_main (ts : List Tensor) : ∀ (m snap : Pool) (next : Nat) (f : PoolKey → Nat),
    (∀ k, snap k = (m k).drop (f k) ∧ f k ≤ (m k).length) →
    (∀ k, ((gsiGoT m snap next ts).2.1 k).length = max ((m k).length) (f k + countKey k ts))
    ∧ (∀ j t, ts[j]? = some t →
        ∃ buf, ((gsiGoT m snap next ts).2.1 (keyOf t))[f (keyOf t) + countKey (keyOf t) (ts.take j)]? = some buf
          ∧ (gsiGoT m snap next ts).1[j]? = some (copyInto (asStrided buf t.shape t.stride) t)) := by
  induction ts with
  | nil =>
    intro m snap next f hinv
    constructor
    · intro k
      have h2 := (hinv k).2
      simp [gsiGoT, countKey]
      omega
    · intro j t ht
      simp at ht
  | cons t0 ts ih =>
    intro m snap next f hinv
    cases h : snap (keyOf t0) with
    | cons b rest =>
      have hdrop : (m (keyOf t0)).drop (f (keyOf t0)) = b :: rest := by
        rw [← (hinv (keyOf t0)).1]
        exact h
      have hlen := congrArg List.length hdrop
      simp only [List.length_drop, List.length_cons] at hlen
      have hle := (hinv (keyOf t0)).2
      have hflt : f (keyOf t0) < (m (keyOf t0)).length := by omega
      have hcons := List.drop_eq_getElem_cons hflt
      rw [hdrop] at hcons
      injection hcons with hb1 hb2
      have hinv1 : ∀ k, poolSet snap (keyOf t0) rest k
            = (m k).drop (bumpKey f (keyOf t0) k)
          ∧ bumpKey f (keyOf t0) k ≤ (m k).length := by
        intro k
        by_cases hk : keyOf t0 = k
        · subst hk
          rw [poolSet_same, bumpKey_same]
          exact ⟨hb2, by omega⟩
        · rw [poolSet_ne snap (keyOf t0) k rest (Ne.symm hk), bumpKey_ne f (keyOf t0) k hk]
          exact hinv k
      obtain ⟨IH1, IH2⟩ := ih m (poolSet snap (keyOf t0) rest) next (bumpKey f (keyOf t0)) hinv1
      rw [gsiGoT_cons_pop m snap next t0 b rest ts h]
      dsimp only
      constructor
      · intro k
        rw [IH1 k]
        by_cases hk : keyOf t0 = k
        · subst hk
          rw [bumpKey_same, countKey_cons_same]
          omega
        · rw [bumpKey_ne f (keyOf t0) k hk, countKey_cons_ne t0 ts k hk]
      · intro j t ht
        cases j with
        | zero =>
          have ht0 : t0 = t := by simpa using ht
          subst ht0
          simp only [List.take_zero, countKey_nil, Nat.add_zero]
          refine ⟨b, ?_, by simp⟩
          obtain ⟨hnext, hext⟩ := gsiGoT_ext ts m (poolSet snap (keyOf t0) rest) next
          obtain ⟨ext, he, hbnd⟩ := hext (keyOf t0)
          rw [he, List.getElem?_append_left hflt, List.getElem?_eq_getElem hflt]
          exact congrArg some hb1.symm
        | succ j =>
          have ht' : ts[j]? = some t := by simpa using ht
          obtain ⟨buf, hbuf, hout⟩ := IH2 j t ht'
          refine ⟨buf, ?_, by simpa using hout⟩
          have hidx : f (keyOf t) + countKey (keyOf t) ((t0 :: ts).take (j + 1))
              = bumpKey f (keyOf t0) (keyOf t) + countKey (keyOf t) (ts.take j) := by
            simp only [List.take_succ_cons, countKey_cons, bumpKey]
            by_cases hk : keyOf t0 = keyOf t
            · simp only [if_pos hk]
              omega
            · simp only [if_neg hk]
              omega
          rw [hidx]
          exact hbuf
    | nil =>
      have hdropnil : (m (keyOf t0)).drop (f (keyOf t0)) = [] := by
        rw [← (hinv (keyOf t0)).1]
        exact h
      have hlen := congrArg List.length hdropnil
      simp only [List.length_drop, List.length_nil] at hlen
      have hle := (hinv (keyOf t0)).2
      have hfeq : f (keyOf t0) = (m (keyOf t0)).length := by omega
      have hinv1 : ∀ k, snap k
            = ((poolSet m (keyOf t0)
                (m (keyOf t0) ++ [torchEmpty (sizeClassOf t0) t0.dtype next])) k).drop
              (bumpKey f (keyOf t0) k)
          ∧ bumpKey f (keyOf t0) k
              ≤ ((poolSet m (keyOf t0)
                  (m (keyOf t0) ++ [torchEmpty (sizeClassOf t0) t0.dtype next])) k).length := by
        intro k
        by_cases hk : keyOf t0 = k
        · subst hk
          rw [poolSet_same, bumpKey_same]
          constructor
          · rw [h]
            symm
            apply List.drop_eq_nil_of_le
            simp
            omega
          · simp
            omega
        · rw [poolSet_ne m (keyOf t0) k _ (Ne.symm hk), bumpKey_ne f (keyOf t0) k hk]
          exact hinv k
      obtain ⟨IH1, IH2⟩ :=
        ih (poolSet m (keyOf t0) (m (keyOf t0) ++ [torchEmpty (sizeClassOf t0) t0.dtype next]))
          snap (next + 1) (bumpKey f (keyOf t0)) hinv1
      rw [gsiGoT_cons_alloc m snap next t0 ts h]
      dsimp only
      constructor
      · intro k
        rw [IH1 k]
        by_cases hk : keyOf t0 = k
        · subst hk
          rw [poolSet_same, bumpKey_same, countKey_cons_same]
          simp only [List.length_append, List.length_cons, List.length_nil]
          omega
        · rw [poolSet_ne m (keyOf t0) k _ (Ne.symm hk), bumpKey_ne f (keyOf t0) k hk,
            countKey_cons_ne t0 ts k hk]
      · intro j t ht
        cases j with
        | zero =>
          have ht0 : t0 = t := by simpa using ht
          subst ht0
          simp only [List.take_zero, countKey_nil, Nat.add_zero]
          refine ⟨torchEmpty (sizeClassOf t0) t0.dtype next, ?_, by simp⟩
          obtain ⟨hnext, hext⟩ := gsiGoT_ext ts
            (poolSet m (keyOf t0) (m (keyOf t0) ++ [torchEmpty (sizeClassOf t0) t0.dtype next]))
            snap (next + 1)
          obtain ⟨ext, he, hbnd⟩ := hext (keyOf t0)
          rw [he, poolSet_same]
          have hx : f (keyOf t0)
              < (m (keyOf t0) ++ [torchEmpty (sizeClassOf t0) t0.dtype next]).length := by
            simp
            omega
          rw [List.getElem?_append_left hx, hfeq]
          exact List.getElem?_concat_length (m (keyOf t0)) (torchEmpty (sizeClassOf t0) t0.dtype next)
        | succ j =>
          have ht' : ts[j]? = some t := by simpa using ht
          obtain ⟨buf, hbuf, hout⟩ := IH2 j t ht'
          refine ⟨buf, ?_, by simpa using hout⟩
          have hidx : f (keyOf t) + countKey (keyOf t) ((t0 :: ts).take (j + 1))
              = bumpKey f (keyOf t0) (keyOf t) + countKey (keyOf t) (ts.take j) := by
            simp only [List.take_succ_cons, countKey_cons, bumpKey]
            by_cases hk : keyOf t0 = keyOf t
            · simp only [if_pos hk]
              omega
            · simp only [if_neg hk]
              omega
          rw [hidx]
          exact hbuf

theorem countKey_append (k : PoolKey) (l1 l2 : List Tensor) :
    countKey k (l1 ++ l2) = countKey k l1 + countKey k l2 := by
  induction l1 with
  | nil => simp [countKey]
  | cons t l ih =>
    simp only [List.cons_append, countKey_cons, ih]
    omega

theorem countKey_congr (ts us : List Tensor) (h : ts.map keyOf = us.map keyOf)
    (k : PoolKey) : countKey k ts = countKey k us := by
  induction ts generalizing us with
  | nil => cases us with
    | nil => rfl
    | cons u us => simp at h
  | cons t ts ih =>
    cases us with
    | nil => simp at h
    | cons u us =>
      simp only [List.map_cons, List.cons.injEq] at h
      rw [countKey_cons, countKey_cons, h.1, ih us h.2]

theorem countKey_take_le (ts : List Tensor) (k : PoolKey) (a b : Nat) (h : a ≤ b) :
    countKey k (ts.take a) ≤ countKey k (ts.take b) := by
  induction ts generalizing a b with
  | nil => simp [countKey]
  | cons t ts ih =>
    cases a with
    | zero => simp [countKey]
    | succ a =>
      cases b with
      | zero => omega
      | succ b =>
        simp only [List.take_succ_cons, countKey_cons]
        have := ih a b (by omega)
        omega

theorem countKey_take_succ (ts : List Tensor) (i : Nat) (t : Tensor)
    (h : ts[i]? = some t) :
    countKey (keyOf t) (ts.take (i + 1)) = countKey (keyOf t) (ts.take i) + 1 := by
  have h1 : ts.take (i + 1) = ts.take i ++ [t] := by
    rw [List.take_succ, h]
    rfl
  rw [h1, countKey_append]
  simp [countKey]

theorem countKey_take_lt (ts : List Tensor) (i j : Nat) (t : Tensor)
    (h : ts[i]? = some t) (hij : i < j) :
    countKey (keyOf t) (ts.take i) < countKey (keyOf t) (ts.take j) := by
  have h1 := countKey_take_succ ts i t h
  have h2 := countKey_take_le ts (keyOf t) (i + 1) j (by omega)
  omega

/-- `get_static_inputsT` returns one bound view per input. -/
theorem gsiT_len (st : PoolState) (ts : List Tensor) :
    (get_static_inputsT st ts).1.length = ts.length := by
  simpa [get_static_inputsT] using gsiGoT_len ts st.master st.master st.nextAddr

/-- `gsiGoT_main` at the entry point: the snapshot is the whole master
pool, nothing consumed yet. -/
theorem gsiT_main (st : PoolState) (ts : List Tensor) :
    (∀ k, ((get_static_inputsT st ts).2.master k).length
        = max ((st.master k).length) (countKey k ts))
    ∧ (∀ j t, ts[j]? = some t →
        ∃ buf, ((get_static_inputsT st ts).2.master (keyOf t))[countKey (keyOf t) (ts.take j)]? = some buf
          ∧ (get_static_inputsT st ts).1[j]? = some (copyInto (asStrided buf t.shape t.stride) t)) := by
  have hinv : ∀ q, st.master q = (st.master q).drop 0 ∧ 0 ≤ (st.master q).length := by
    intro q
    simp
  obtain ⟨L, C⟩ := gsiGoT_main ts st.master st.master st.nextAddr (fun _ => 0) hinv
  constructor
  · intro k
    simpa [get_static_inputsT] using L k
  · intro j t ht
    obtain ⟨buf, h1, h2⟩ := C j t ht
    refine ⟨buf, ?_, ?_⟩
    · simpa [get_static_inputsT] using h1
    · simpa [get_static_inputsT] using h2

/-- `gsiGoT_ext` at the entry point. -/
theorem gsiT_ext (st : PoolState) (ts : List Tensor) :
    st.nextAddr ≤ (get_static_inputsT st ts).2.nextAddr
    ∧ ∀ k, ∃ ext, (get_static_inputsT st ts).2.master k = st.master k ++ ext
        ∧ ∀ b ∈ ext, st.nextAddr ≤ b.addr ∧ b.addr < (get_static_inputsT st ts).2.nextAddr := by
  obtain ⟨hn, hext⟩ := gsiGoT_ext ts st.master st.master st.nextAddr
  constructor
  · simpa [get_static_inputsT] using hn
  · intro k
    obtain ⟨ext, he, hbnd⟩ := hext k
    refine ⟨ext, ?_, ?_⟩
    · simpa [get_static_inputsT] using he
    · intro b hb
      have := hbnd b hb
      simpa [get_static_inputsT] using this

/-- `gsiGoT_wf` at the entry point. -/
theorem gsiT_wf (st : PoolState) (ts : List Tensor)
    (hb : ∀ k, ∀ b ∈ st.master k, b.addr < st.nextAddr)
    (hnd : ∀ k, ((st.master k).map Tensor.addr).Nodup) :
    (∀ k, ∀ b ∈ (get_static_inputsT st ts).2.master k,
        b.addr < (get_static_inputsT st ts).2.nextAddr)
    ∧ (∀ k, (((get_static_inputsT st ts).2.master k).map Tensor.addr).Nodup) := by
  obtain ⟨h1, h2⟩ := gsiGoT_wf ts st.master st.master st.nextAddr hb hnd
  constructor
  · intro k b hbmem
    have hm : b ∈ (gsiGoT st.master st.master st.nextAddr ts).2.1 k := by
      simpa [get_static_inputsT] using hbmem
    simpa [get_static_inputsT] using h1 k b hm
  · intro k
    simpa [get_static_inputsT] using h2 k

/-- A single-input call whose key already has a pooled buffer pops the
front buffer and leaves the whole state unchanged. -/
theorem gsiT_single (st : PoolState) (t b : Tensor) (rest : List Tensor)
    (h : st.master (keyOf t) = b :: rest) :
    get_static_inputsT st [t]
      = ([copyInto (asStrided b t.shape t.stride) t], st) := by
  simp [get_static_inputsT, gsiGoT, bindOneT_pop st.master st.master st.nextAddr t b rest h]

theorem np2From_ge (fuel : Nat) : ∀ (n p : Nat), n ≤ p * 2 ^ fuel → n ≤ np2From n fuel p := by
  induction fuel with
  | zero =>
    intro n p h2
    simpa [np2From] using h2
  | succ fuel ih =>
    intro n p h2
    by_cases hnp : n ≤ p
    · simp [np2From, hnp]
    · simp only [np2From, if_neg hnp]
      apply ih n (2 * p)
      have : p * 2 ^ (fuel + 1) = 2 * p * 2 ^ fuel := by ring
      omega

theorem np2From_pow (fuel : Nat) : ∀ (n p j : Nat), p = 2 ^ j →
    ∃ k, np2From n fuel p = 2 ^ k := by
  induction fuel with
  | zero =>
    intro n p j hp
    exact ⟨j, by simpa [np2From] using hp⟩
  | succ fuel ih =>
    intro n p j hp
    by_cases hnp : n ≤ p
    · exact ⟨j, by simpa [np2From, hnp] using hp⟩
    · simp only [np2From, if_neg hnp]
      exact ih n (2 * p) (j + 1) (by rw [hp]; ring)

theorem np2From_min (fuel : Nat) : ∀ (n p j m k : Nat), p = 2 ^ j → m = 2 ^ k →
    n ≤ m → p ≤ m → np2From n fuel p ≤ m := by
  induction fuel with
  | zero =>
    intro n p j m k hp hm hnm hpm
    simpa [np2From] using hpm
  | succ fuel ih =>
    intro n p j m k hp hm hnm hpm
    by_cases hnp : n ≤ p
    · simpa [np2From, hnp] using hpm
    · simp only [np2From, if_neg hnp]
      have hplt : p < m := by omega
      have hjk : j < k := by
        rw [hp, hm] at hplt
        exact (Nat.pow_lt_pow_iff_right (by norm_num)).mp hplt
      apply ih n (2 * p) (j + 1) m k (by rw [hp]; ring) hm hnm
      calc 2 * p = 2 ^ (j + 1) := by rw [hp]; ring
        _ ≤ 2 ^ k := Nat.pow_le_pow_right (by norm_num) (by omega)
        _ = m := hm.symm

/-- `next_power_of_2 n` is at least `n`. -/
theorem le_next_power_of_2 (n : Nat) (h : 1 ≤ n) : n ≤ next_power_of_2 n := by
  have hne : ¬ n = 0 := by omega
  simp only [next_power_of_2, if_neg hne]
  apply np2From_ge n n 1
  have := Nat.lt_two_pow n
  omega

/-- `next_power_of_2 n` is a power of two for positive `n`. -/
theorem next_power_of_2_pow (n : Nat) (h : 1 ≤ n) :
    ∃ k, next_power_of_2 n = 2 ^ k := by
  have hne : ¬ n = 0 := by omega
  simp only [next_power_of_2, if_neg hne]
  exact np2From_pow n n 1 0 (by norm_num)

/-- `next_power_of_2 n` is below every power of two that is at least
`n`. -/
theorem next_power_of_2_min (n m k : Nat) (hm : m = 2 ^ k) (hle : n ≤ m) :
    next_power_of_2 n ≤ m := by
  by_cases hne : n = 0
  · simp [next_power_of_2, hne]
  · simp only [next_power_of_2, if_neg hne]
    apply np2From_min n n 1 0 m k (by norm_num) hm hle
    rw [hm]
    exact Nat.one_le_two_pow

/-- Claim C2 (amended): the size class is the least power of two that
is at least the input's raw storage length in BYTES (the length of the
untyped storage); in particular float32 inputs of 100 and 300 storage
elements (400 and 1200 bytes) map to size classes 512 and 2048. -/
theorem C2_size_class :
    (∀ t : Tensor, 1 ≤ t.storageNBytes →
      (∃ k, sizeClassOf t = 2 ^ k) ∧ t.storageNBytes ≤ sizeClassOf t
        ∧ ∀ m k, m = 2 ^ k → t.storageNBytes ≤ m → sizeClassOf t ≤ m)
    ∧ sizeClassOf (tensorOfElems 100 DType.float32 0) = 512
    ∧ sizeClassOf (tensorOfElems 300 DType.float32 0) = 2048 := by
  refine ⟨?_, by decide, by decide⟩
  intro t h
  exact ⟨next_power_of_2_pow _ h, le_next_power_of_2 _ h,
    fun m k hm hle => next_power_of_2_min _ m k hm hle⟩

/-- Claim C2, counterexample to the claim as stated: a float32 input
of storage length 100 elements has size class 512 (not 128), and one
of 300 elements has size class 2048 (not 512), because the source
feeds `len(untyped_storage())` — a byte count — to
`next_power_of_2`. -/
theorem C2_counterexample :
    sizeClassOf (tensorOfElems 100 DType.float32 0) = 512
    ∧ sizeClassOf (tensorOfElems 100 DType.float32 0) ≠ 128
    ∧ sizeClassOf (tensorOfElems 300 DType.float32 0) = 2048
    ∧ sizeClassOf (tensorOfElems 300 DType.float32 0) ≠ 512 := by
  decide

theorem C2_witness :
    1 ≤ (tensorOfElems 100 DType.float32 0).storageNBytes
    ∧ (tensorOfElems 100 DType.float32 0).storageNBytes
        ≤ sizeClassOf (tensorOfElems 100 DType.float32 0) :=
  ⟨by decide, (C2_size_class.1 (tensorOfElems 100 DType.float32 0) (by decide)).2.1⟩

/-- Claim C6: on every bind, the view's base address after the copy
equals the buffer address recorded before the copy, so the
address-instability assertion never fires: the checked
`get_static_inputs` always succeeds, returning exactly the value of
the assertion-free function. -/
theorem C6_assertion_unreachable (st : PoolState) (ts : List Tensor) :
    get_static_inputs st ts = Except.ok (get_static_inputsT st ts) := by
  simp [get_static_inputs, get_static_inputsT, gsiGo_eq_ok]

/-- Claim C3: after a call, the deque length for any key is the
maximum of its previous length and the call's demand for that key —
so it never decreases, and it grows exactly by the deficit when demand
exceeds the prior count; moreover the call only appends. -/
theorem C3_monotonic_pool_growth (st : PoolState) (ts : List Tensor) (k : PoolKey) :
    ((get_static_inputsT st ts).2.master k).length
        = max ((st.master k).length) (countKey k ts)
    ∧ (st.master k).length ≤ ((get_static_inputsT st ts).2.master k).length
    ∧ ∃ ext, (get_static_inputsT st ts).2.master k = st.master k ++ ext := by
  obtain ⟨L, _⟩ := gsiT_main st ts
  obtain ⟨_, hext⟩ := gsiT_ext st ts
  refine ⟨L k, ?_, ?_⟩
  · rw [L k]
    exact le_max_left _ _
  · obtain ⟨ext, he, _⟩ := hext k
    exact ⟨ext, he⟩

/-- Claim C4: FIFO reuse.  With `[A, B]` pooled for a key (A
registered first), a one-input call of that key binds to A and leaves
the pool unchanged; an immediately following one-input call again
binds to A; a two-input call binds to A then B. -/
theorem C4_fifo_reuse (st : PoolState) (k : PoolKey) (A B t1 t2 u1 u2 : Tensor)
    (hp : st.master k = [A, B])
    (h1 : keyOf t1 = k) (h2 : keyOf t2 = k) (h3 : keyOf u1 = k) (h4 : keyOf u2 = k) :
    (get_static_inputsT st [t1]).1.map Tensor.addr = [A.addr]
    ∧ (get_static_inputsT (get_static_inputsT st [t1]).2 [t2]).1.map Tensor.addr = [A.addr]
    ∧ (get_static_inputsT st [u1, u2]).1.map Tensor.addr = [A.addr, B.addr] := by
  have hA1 : st.master (keyOf t1) = A :: [B] := by
    rw [h1]
    exact hp
  have hA2 : st.master (keyOf t2) = A :: [B] := by
    rw [h2]
    exact hp
  have hA3 : st.master (keyOf u1) = A :: [B] := by
    rw [h3]
    exact hp
  refine ⟨?_, ?_, ?_⟩
  · rw [gsiT_single st t1 A [B] hA1]
    simp [view_addr]
  · rw [gsiT_single st t1 A [B] hA1]
    show (get_static_inputsT st [t2]).1.map Tensor.addr = [A.addr]
    rw [gsiT_single st t2 A [B] hA2]
    simp [view_addr]
  · have h5 : poolSet st.master (keyOf u1) [B] (keyOf u2) = B :: [] := by
      rw [h3, h4, poolSet_same]
    simp [get_static_inputsT, gsiGoT, view_addr,
      bindOneT_pop st.master st.master st.nextAddr u1 A [B] hA3,
      bindOneT_pop st.master (poolSet st.master (keyOf u1) [B]) st.nextAddr u2 B [] h5]

theorem C4_witness :
    stAB.master (8, DType.float32) = [bufA, bufB]
    ∧ keyOf tA = (8, DType.float32)
    ∧ keyOf tB = (8, DType.float32)
    ∧ ((get_static_inputsT stAB [tA]).1.map Tensor.addr = [bufA.addr]
      ∧ (get_static_inputsT (get_static_inputsT stAB [tA]).2 [tB]).1.map Tensor.addr = [bufA.addr]
      ∧ (get_static_inputsT stAB [tA, tB]).1.map Tensor.addr = [bufA.addr, bufB.addr]) :=
  ⟨by decide, by decide, by decide,
    C4_fifo_reuse stAB (8, DType.float32) bufA bufB tA tB tA tB
      (by decide) (by decide) (by decide) (by decide) (by decide)⟩

/-- Claim C1: two back-to-back calls with the same ordered key
sequence (with no pool activity in between) bind to buffers with the
same base addresses at every position. -/
theorem C1_address_stability (st : PoolState) (ts1 ts2 : List Tensor)
    (hkeys : ts1.map keyOf = ts2.map keyOf) :
    (get_static_inputsT st ts1).1.map Tensor.addr
      = (get_static_inputsT (get_static_inputsT st ts1).2 ts2).1.map Tensor.addr := by
  have hlen12 : ts1.length = ts2.length := by
    have := congrArg List.length hkeys
    simpa using this
  obtain ⟨L1, Ch1⟩ := gsiT_main st ts1
  obtain ⟨L2, Ch2⟩ := gsiT_main (get_static_inputsT st ts1).2 ts2
  obtain ⟨_, hext2⟩ := gsiT_ext (get_static_inputsT st ts1).2 ts2
  have hmeq : ∀ k, (get_static_inputsT (get_static_inputsT st ts1).2 ts2).2.master k
      = (get_static_inputsT st ts1).2.master k := by
    intro k
    obtain ⟨ext, he, _⟩ := hext2 k
    have hcnt : countKey k ts2 = countKey k ts1 := countKey_congr ts2 ts1 hkeys.symm k
    have hl1 := L1 k
    have hl2 := L2 k
    have hlenfin : ((get_static_inputsT (get_static_inputsT st ts1).2 ts2).2.master k).length
        = ((get_static_inputsT st ts1).2.master k).length := by
      rw [hl2, hcnt, hl1]
      omega
    have hext0 : ext = [] := by
      have hlapp := congrArg List.length he
      rw [List.length_append, hlenfin] at hlapp
      have : ext.length = 0 := by omega
      exact List.eq_nil_of_length_eq_zero this
    rw [he, hext0, List.append_nil]
  apply List.ext_getElem?
  intro n
  rw [List.getElem?_map, List.getElem?_map]
  by_cases hn : n < ts1.length
  · have hn2 : n < ts2.length := by omega
    have h1 : ts1[n]? = some ts1[n] := List.getElem?_eq_getElem hn
    have h2 : ts2[n]? = some ts2[n] := List.getElem?_eq_getElem hn2
    obtain ⟨buf1, hb1, ho1⟩ := Ch1 n ts1[n] h1
    obtain ⟨buf2, hb2, ho2⟩ := Ch2 n ts2[n] h2
    have hkn : keyOf ts1[n] = keyOf ts2[n] := by
      have hmapn : (ts1.map keyOf)[n]? = (ts2.map keyOf)[n]? := by
        rw [hkeys]
      rw [List.getElem?_map, List.getElem?_map, h1, h2] at hmapn
      simpa using hmapn
    have htk : countKey (keyOf ts2[n]) (ts1.take n) = countKey (keyOf ts2[n]) (ts2.take n) := by
      apply countKey_congr
      rw [List.map_take, List.map_take, hkeys]
    rw [hmeq] at hb2
    rw [hkn, htk] at hb1
    have hbeq : buf1 = buf2 := by
      rw [hb1] at hb2
      exact Option.some.inj hb2
    rw [ho1, ho2]
    simp [view_addr, hbeq]
  · have e1 : (get_static_inputsT st ts1).1[n]? = none := by
      apply List.getElem?_eq_none
      rw [gsiT_len]
      omega
    have e2 : (get_static_inputsT (get_static_inputsT st ts1).2 ts2).1[n]? = none := by
      apply List.getElem?_eq_none
      rw [gsiT_len]
      omega
    rw [e1, e2]

theorem C1_witness :
    [tA].map keyOf = [tB].map keyOf
    ∧ (get_static_inputsT initState [tA]).1.map Tensor.addr
        = (get_static_inputsT (get_static_inputsT initState [tA]).2 [tB]).1.map Tensor.addr :=
  ⟨by decide, C1_address_stability initState [tA] [tB] (by decide)⟩

/-- Claim C5: every bound view keeps the input's logical shape, stride
and values, at a base address that differs from the input's (for an
input whose storage is disjoint from the pool's buffers). -/
theorem C5_value_fidelity (st : PoolState) (ts : List Tensor) (j : Nat) (t : Tensor)
    (ht : ts[j]? = some t)
    (hdisj : ∀ k, ∀ b ∈ st.master k, b.addr ≠ t.addr)
    (hlive : t.addr < st.nextAddr) :
    ∀ v, (get_static_inputsT st ts).1[j]? = some v →
      v.shape = t.shape ∧ v.stride = t.stride ∧ v.values = t.values ∧ v.addr ≠ t.addr := by
  obtain ⟨_, Ch⟩ := gsiT_main st ts
  obtain ⟨_, hext⟩ := gsiT_ext st ts
  obtain ⟨buf, hbuf, ho⟩ := Ch j t ht
  intro v hv
  have hveq : v = copyInto (asStrided buf t.shape t.stride) t := by
    rw [ho] at hv
    exact (Option.some.inj hv).symm
  subst hveq
  refine ⟨rfl, rfl, rfl, ?_⟩
  rw [view_addr]
  have hmem : buf ∈ (get_static_inputsT st ts).2.master (keyOf t) := List.getElem?_mem hbuf
  obtain ⟨ext, he, hbnd⟩ := hext (keyOf t)
  rw [he] at hmem
  rcases List.mem_append.mp hmem with hm | hm
  · exact hdisj (keyOf t) buf hm
  · obtain ⟨hge, _⟩ := hbnd buf hm
    omega

theorem C5_witness :
    tA.addr < stHi.nextAddr
    ∧ ((⟨DType.float32, [2], [1], [3, 4], 32, 1500⟩ : Tensor).shape = tA.shape
      ∧ (⟨DType.float32, [2], [1], [3, 4], 32, 1500⟩ : Tensor).stride = tA.stride
      ∧ (⟨DType.float32, [2], [1], [3, 4], 32, 1500⟩ : Tensor).values = tA.values
      ∧ (⟨DType.float32, [2], [1], [3, 4], 32, 1500⟩ : Tensor).addr ≠ tA.addr) :=
  ⟨by decide,
    C5_value_fidelity stHi [tA] 0 tA (by decide)
      (fun k b hb => absurd hb (List.not_mem_nil b)) (by decide)
      ⟨DType.float32, [2], [1], [3, 4], 32, 1500⟩ (by decide)⟩

/-- Claim C9: within one call, two inputs with the same pool key are
bound to buffers at distinct base addresses (also when buffers are
freshly allocated during the call), and the call only appends to the
master pool. -/
theorem C9_distinct_within_call (st : PoolState) (ts : List Tensor) (i j : Nat) (ti tj : Tensor)
    (hbnd : ∀ k, ∀ b ∈ st.master k, b.addr < st.nextAddr)
    (hnd : ∀ k, ((st.master k).map Tensor.addr).Nodup)
    (hij : i < j)
    (hti : ts[i]? = some ti) (htj : ts[j]? = some tj)
    (hkey : keyOf ti = keyOf tj) :
    (∀ vi vj, (get_static_inputsT st ts).1[i]? = some vi →
        (get_static_inputsT st ts).1[j]? = some vj → vi.addr ≠ vj.addr)
    ∧ (∀ k, ∃ ext, (get_static_inputsT st ts).2.master k = st.master k ++ ext) := by
  obtain ⟨_, Ch⟩ := gsiT_main st ts
  obtain ⟨_, hndf⟩ := gsiT_wf st ts hbnd hnd
  obtain ⟨_, hext⟩ := gsiT_ext st ts
  constructor
  · intro vi vj hvi hvj
    obtain ⟨bufi, hbi, hoi⟩ := Ch i ti hti
    obtain ⟨bufj, hbj, hoj⟩ := Ch j tj htj
    have hvieq : vi = copyInto (asStrided bufi ti.shape ti.stride) ti := by
      rw [hoi] at hvi
      exact (Option.some.inj hvi).symm
    have hvjeq : vj = copyInto (asStrided bufj tj.shape tj.stride) tj := by
      rw [hoj] at hvj
      exact (Option.some.inj hvj).symm
    subst hvieq
    subst hvjeq
    rw [view_addr, view_addr]
    rw [hkey] at hbi
    have hlt := countKey_take_lt ts i j ti hti hij
    rw [hkey] at hlt
    intro heq
    obtain ⟨hfj, _⟩ := List.getElem?_eq_some.mp hbj
    have hM := hndf (keyOf tj)
    have hne := (List.nodup_iff_getElem?_ne_getElem?.mp hM)
        (countKey (keyOf tj) (ts.take i)) (countKey (keyOf tj) (ts.take j)) hlt
        (by rw [List.length_map]; exact hfj)
    apply hne
    rw [List.getElem?_map, List.getElem?_map, hbi, hbj]
    simp [heq]
  · intro k
    obtain ⟨ext, he, _⟩ := hext k
    exact ⟨ext, he⟩

theorem C9_witness :
    (0 : Nat) < 1
    ∧ keyOf tA = keyOf tB
    ∧ ((⟨DType.float32, [2], [1], [3, 4], 32, 0⟩ : Tensor).addr
        ≠ (⟨DType.float32, [2], [1], [5, 6], 32, 1⟩ : Tensor).addr) :=
  ⟨by decide, by decide,
    (C9_distinct_within_call initState [tA, tB] 0 1 tA tB
        (fun k b hb => absurd hb (List.not_mem_nil b))
        (fun k => List.nodup_nil)
        (by decide) (by decide) (by decide) (by decide)).1
      ⟨DType.float32, [2], [1], [3, 4], 32, 0⟩ ⟨DType.float32, [2], [1], [5, 6], 32, 1⟩
      (by decide) (by decide)⟩

theorem deferredStep_cached (M : List Tensor → List Tensor)
    (Cap : (List Tensor → List Tensor) → List Tensor → List Nat → (List Tensor → List Tensor))
    (nEx : Nat) (ds : DeferredState) (st : PoolState) (args : List Tensor)
    (cf : List Tensor → List Tensor) (h : ds.compiledFn = some cf) :
    (deferredStep M Cap nEx ds st args).2.1 = ds := by
  simp [deferredStep, h]

theorem deferredRun_cached (M : List Tensor → List Tensor)
    (Cap : (List Tensor → List Tensor) → List Tensor → List Nat → (List Tensor → List Tensor))
    (nEx : Nat) (calls : List (List Tensor)) :
    ∀ (ds : DeferredState) (st : PoolState), ds.compiledFn.isSome = true →
      (deferredRun M Cap nEx ds st calls).1 = ds := by
  induction calls with
  | nil =>
    intro ds st h
    rfl
  | cons c rest ih =>
    intro ds st h
    obtain ⟨cf, hcf⟩ := Option.isSome_iff_exists.mp h
    simp only [deferredRun]
    rw [deferredStep_cached M Cap nEx ds st c cf hcf]
    exact ih ds _ h

/-- Claim C7: for a deferred wrapper (cell initially empty), the first
concrete call performs exactly one capture and populates the cell;
any sequence of later calls leaves the cell and the capture log
untouched, reusing the same cached replay function. -/
theorem C7_single_capture (M : List Tensor → List Tensor)
    (Cap : (List Tensor → List Tensor) → List Tensor → List Nat → (List Tensor → List Tensor))
    (nEx : Nat) (st : PoolState) (first : List Tensor) (rest : List (List Tensor)) :
    ((deferredStep M Cap nEx ⟨none, []⟩ st first).2.1.captureLog).length = 1
    ∧ (deferredStep M Cap nEx ⟨none, []⟩ st first).2.1.compiledFn.isSome = true
    ∧ (deferredRun M Cap nEx (deferredStep M Cap nEx ⟨none, []⟩ st first).2.1
          (deferredStep M Cap nEx ⟨none, []⟩ st first).2.2 rest).1
        = (deferredStep M Cap nEx ⟨none, []⟩ st first).2.1 := by
  refine ⟨?_, ?_, ?_⟩
  · simp [deferredStep]
  · simp [deferredStep]
  · exact deferredRun_cached M Cap nEx rest _ _ (by simp [deferredStep])

/-- Claim C8, counterexample to the claim as stated: a deferred
wrapper built with ONE example input and first called with TWO
concrete tensors invokes capture with static indices `[0]`, not the
full index set `{0, 1}` of the two bound inputs actually passed. -/
theorem C8_counterexample :
    ((deferredStep M0 Cap0 1 ⟨none, []⟩ initState [tA, tB]).2.1.captureLog).map
        (fun c => (c.staticIdxs, c.boundInputs.length)) = [([0], 2)]
    ∧ ([0] : List Nat) ≠ List.range 2 := by
  constructor
  · decide
  · decide

/-- Claim C8 (amended): in the eager branch, capture receives static
indices `{0..n-1}` for the `n` bound inputs it is passed; in the
deferred branch it receives `{0..m-1}` where `m` counts the
construction-time example inputs, which coincides with the full index
set of the bound inputs exactly when the first concrete call passes
as many inputs as there were example inputs. -/
theorem C8_static_indices (M : List Tensor → List Tensor)
    (Cap : (List Tensor → List Tensor) → List Tensor → List Nat → (List Tensor → List Tensor))
    (st : PoolState) (ts : List Tensor)
    (nEx : Nat) (st2 : PoolState) (args : List Tensor) (hn : args.length = nEx) :
    ((eagerBuild M Cap st ts).cap.staticIdxs
        = List.range (eagerBuild M Cap st ts).cap.boundInputs.length)
    ∧ ((deferredStep M Cap nEx ⟨none, []⟩ st2 args).2.1.captureLog
        = [⟨(get_static_inputsT st2 args).1, List.range nEx⟩])
    ∧ (∀ c ∈ (deferredStep M Cap nEx ⟨none, []⟩ st2 args).2.1.captureLog,
        c.staticIdxs = List.range c.boundInputs.length) := by
  refine ⟨rfl, by simp [deferredStep], ?_⟩
  intro c hc
  simp [deferredStep] at hc
  subst hc
  show List.range nEx = List.range (get_static_inputsT st2 args).1.length
  rw [gsiT_len, hn]

theorem C8_witness :
    ([tA] : List Tensor).length = 1
    ∧ (∀ c ∈ (deferredStep M0 Cap0 1 ⟨none, []⟩ initState [tA]).2.1.captureLog,
        c.staticIdxs = List.range c.boundInputs.length) :=
  ⟨by decide, (C8_static_indices M0 Cap0 initState [] 1 initState [tA] (by decide)).2.2⟩

/-- Claim C10: `cuda_graphs_wrapper` fails its isinstance assertion on
a non-sequence inputs argument (producing no result at all, so the
pool and the model are untouched); for any list or tuple it succeeds,
selecting the deferred branch exactly when some element is a fake
tensor. -/
theorem C10_isinstance_assert (M : List Tensor → List Tensor)
    (Cap : (List Tensor → List Tensor) → List Tensor → List Nat → (List Tensor → List Tensor))
    (st : PoolState) (xs : List WInput) :
    cuda_graphs_wrapper M Cap st PyArg.notSeq = .error ("inputs must be a list or a tuple")
    ∧ cuda_graphs_wrapper M Cap st (PyArg.list xs) = .ok (wrapperBody M Cap st xs)
    ∧ cuda_graphs_wrapper M Cap st (PyArg.tuple xs) = .ok (wrapperBody M Cap st xs)
    ∧ (wrapperBody M Cap st xs).isDeferredB = xs.any (fun i => i.isFake) := by
  refine ⟨rfl, rfl, rfl, ?_⟩
  cases h : xs.any (fun i => i.isFake) with
  | false => simp [wrapperBody, h, WrapperRet.isDeferredB]
  | true => simp [wrapperBody, h, WrapperRet.isDeferredB]
